import Mathlib

/-!
Verification development for the `cache` crate: a capacity-bounded
recency-ordered key/value cache (`Cache`, src/lib.rs), the one-pass
k-smallest selection (`find_lru_item_to_remove`, src/util.rs), a
value-interning set of shared handles (`ArcHashSet`, src/arc_hash_set.rs),
their composition (`CacheDedup`, src/cache_dedup.rs) and a lazily
initialized single-value cell (`CacheIsland`, src/cache_island.rs).

Modelling conventions:
* `usize`/`u64` counters are modelled as `Nat`; the recency clock only ever
  increments by 1 per operation, and none of the verified properties
  depend on wrap-around behaviour.
* `HashMap`/`HashSet` are modelled as association lists in some iteration
  order; the verified properties are independent of that order.
* `Arc<V>` allocations are modelled as pairs `(id, value) : Nat × V`;
  two handles denote the identical allocation iff their `id`s coincide.
  Reference counts are recomputed from the states that hold clones.
* Fallible steps (`unwrap`, a `Vec::insert` at an out-of-range index)
  are modelled through `Option` where a claim is about their safety.
-/

/-- State of the lazy cell slot: the `AsyncOnceCell<CacheIslandInternal<T>>`
of src/cache_island.rs is either uninitialized (`empty`) or holds a value
together with its recorded age (`CacheIslandInternal { age, value }`). -/
inductive CellState (T : Type) where
  | empty : CellState T
  | ready (value : T) (age : Nat) : CellState T
deriving DecidableEq, Repr

/-- A `CacheIsland<T>` together with the process-wide `CACHE_ISLAND_AGE`
counter (src/cache_island.rs line 119), which its operations read and
bump via `fetch_add`. -/
structure IslandWorld (T : Type) where
  cell : CellState T
  globalAge : Nat
deriving DecidableEq, Repr

/-- Modelled from the spec: the external once-cell collaborator
(`async_cell_lock::AsyncOnceCell`, an "asynchronous single-assignment /
once-cell primitive providing the at-most-once-initialization guarantee").
Sequential semantics of `CacheIsland::get_or_try_init_async`
(src/cache_island.rs lines 73-83): when the slot holds a value it is
returned and the initializer is not run; when empty, the initializer's
success is installed (drawing a fresh age tick via
`CacheIslandInternal::with_value`) and its error propagates through `?`
leaving the slot untouched. The initializer future is modelled by the
`Except E T` outcome it resolves to. -/
def CacheIsland.get_or_try_init_async (w : IslandWorld T) (f : Except E T) :
    Except E T × IslandWorld T :=
  match w.cell with
  | .ready v a => (.ok v, ⟨.ready v a, w.globalAge⟩)
  | .empty =>
    match f with
    | .ok t => (.ok t, ⟨.ready t w.globalAge, w.globalAge + 1⟩)
    | .error e => (.error e, ⟨.empty, w.globalAge⟩)

/-- Source `CacheIsland::replace` (src/cache_island.rs lines 85-89):
`self.0.swap(Some(CacheIslandInternal::with_value(value))).map(|v| v.value)`.
`with_value` draws a fresh tick from the global counter; `swap` returns the
displaced value if any. -/
def CacheIsland.replace (w : IslandWorld T) (value : T) :
    Option T × IslandWorld T :=
  ((match w.cell with
    | .ready v _ => some v
    | .empty => none),
   ⟨.ready value w.globalAge, w.globalAge + 1⟩)

/-- Source `CacheIsland::clear` (src/cache_island.rs lines 43-45):
`self.0.take();` — the once-cell's `take` empties the slot and its
returned value is discarded. -/
def CacheIsland.clear (w : IslandWorld T) : IslandWorld T :=
  { w with cell := .empty }

/-- Modelled from the spec: a `take()` operation as the spec words it
("force `Empty`, returning the displaced value if any"); the source
exposes no such public operation (its `clear` discards the value), so
this definition follows the spec's words, for comparison with the
source's `CacheIsland.clear`. -/
def CacheIsland.take_spec (w : IslandWorld T) : Option T × IslandWorld T :=
  ((match w.cell with
    | .ready v _ => some v
    | .empty => none),
   { w with cell := .empty })

/-- Source `CacheIsland::get` (src/cache_island.rs lines 53-61): on a hit
the cell's age is set to a fresh global tick and the value returned. -/
def CacheIsland.get (w : IslandWorld T) : Option T × IslandWorld T :=
  match w.cell with
  | .ready v _ => (some v, ⟨.ready v w.globalAge, w.globalAge + 1⟩)
  | .empty => (none, ⟨.empty, w.globalAge⟩)

/-- Source `CacheIsland::clear_if_untouched_since` (src/cache_island.rs
lines 47-51): `if self.0.get_mut().map_or(false, |v| *v.age.get_mut() <= age)
{ self.0.take(); }`. Note the once-cell's `get_mut` does not bump the age. -/
def CacheIsland.clear_if_untouched_since (w : IslandWorld T) (age : Nat) :
    IslandWorld T :=
  match w.cell with
  | .ready v a => if a ≤ age then { w with cell := .empty } else ⟨.ready v a, w.globalAge⟩
  | .empty => w

/-- An `ArcHashSet<T>` (src/arc_hash_set.rs): a hash set of `Arc<T>`.
Allocations are `(id, value)` pairs; `nextId` supplies fresh allocation
identities for `Arc::new`. -/
structure ArcHashSet (V : Type) where
  nextId : Nat
  elems : List (Nat × V)
deriving DecidableEq, Repr

/-- Source `ArcHashSet::get_or_init` (src/arc_hash_set.rs lines 38-49):
if an equal value is present, `self.0.get(&*v).unwrap()` returns its stored
handle; otherwise a fresh `Arc` is created, inserted, and looked up again
with `unwrap`. The two `unwrap`s are modelled by the `Option` result
(`none` models a panic). -/
def ArcHashSet.get_or_init [DecidableEq V] (s : ArcHashSet V) (v : V) :
    Option ((Nat × V) × ArcHashSet V) :=
  match s.elems.find? (fun a => decide (a.2 = v)) with
  | some a => some (a, s)
  | none =>
    let a : Nat × V := (s.nextId, v)
    let s2 : ArcHashSet V := ⟨s.nextId + 1, s.elems ++ [a]⟩
    match s2.elems.find? (fun b => decide (b.2 = v)) with
    | some b => some (b, s2)
    | none => none

/-- Source `ArcHashSet::remove` (src/arc_hash_set.rs lines 51-53):
`self.0.remove(v)` removes the handle equal to `v`, if any. -/
def ArcHashSet.remove [DecidableEq V] (s : ArcHashSet V) (v : V) : ArcHashSet V :=
  ⟨s.nextId, s.elems.eraseP (fun a => decide (a.2 = v))⟩

/-- Fuel-indexed core of Rust `slice::binary_search_by` as invoked at
src/util.rs line 39 with the comparator `probe.1.cmp(&age)`: the searched
slice is represented by its list of ages. Rust's loop keeps bounds
`left < right`, probes `mid = left + (right - left) / 2`, narrows to
`(mid+1, right)` on `Less`, `(left, mid)` on `Greater`, and returns `mid`
on `Equal`; on exit it returns `left` (both `Ok` and `Err` indices are
used identically by the caller). The loop is modelled by structural
recursion on a fuel that starts at `ages.length`, an upper bound for the
number of iterations, so the fuel-exhausted arm is unreachable. -/
def bsAgesAux (ages : List Nat) (age : Nat) : Nat → Nat → Nat → Nat
  | 0, left, _right => left
  | fuel + 1, left, right =>
    if left < right then
      let mid := left + (right - left) / 2
      let a := ages.getD mid 0
      if a < age then bsAgesAux ages age fuel (mid + 1) right
      else if age < a then bsAgesAux ages age fuel left mid
      else mid
    else left

/-- Binary search over the ages of the buffer, at the full range. -/
def binarySearchAges (ages : List Nat) (age : Nat) : Nat :=
  bsAgesAux ages age ages.length 0 ages.length

/-- One iteration of the second loop of `find_lru_item_to_remove`
(src/util.rs lines 35-46) on an already-paired item: if its age is below
the buffer's maximum (`page.last().unwrap()`; the `none` arm is
unreachable because the buffer holds `remove_count ≥ 1` entries), the
maximum is popped and the item inserted at the binary-searched position.
`Vec::insert` at an index beyond the popped length would panic; the
position is proved to stay in range, where `insertIdx` agrees with it. -/
def lruStep (page : List (ι × Nat)) (x : ι × Nat) : List (ι × Nat) :=
  match page.getLast? with
  | some lastp =>
    if x.2 < lastp.2 then
      let index := binarySearchAges (page.map Prod.snd) x.2
      (page.dropLast).insertIdx index x
    else page
  | none => page

/-- The sort `page.sort_unstable_by(|a, b| a.1.cmp(&b.1))` of
src/util.rs lines 25 and 32, modelled as a comparison sort on the age
component (the particular order among equal ages is an implementation
detail of `sort_unstable`; every property verified here either assumes
distinct ages or does not depend on that order). -/
def ageSorted (l : List (ι × Nat)) : List (ι × Nat) :=
  l.insertionSort (fun a b => a.2 ≤ b.2)

/-- Source `find_lru_item_to_remove` (src/util.rs lines 4-49), with the
generic `AGE : Ord` instantiated at `Nat`. The first loop fills the buffer
with the first `remove_count` (item, age) pairs, returning everything
sorted when the input is shorter; the remaining items are then folded
through `lruStep`. -/
def find_lru_item_to_remove (l : List ι) (remove_count : Nat) (f : ι → Nat) :
    List ι :=
  if remove_count = 0 then []
  else
    let pairs := l.map (fun x => (x, f x))
    if l.length < remove_count then
      (ageSorted pairs).map Prod.fst
    else
      ((pairs.drop remove_count).foldl lruStep
        (ageSorted (pairs.take remove_count))).map Prod.fst

/-- A cache record (src/lib.rs lines 488-491): the stored value and its
atomic recency stamp. -/
structure Rec (V : Type) where
  lru : Nat
  val : V
deriving DecidableEq, Repr

/-- The bounded cache (src/lib.rs lines 20-25): capacity range
`capacityStart..=capacityEnd`, the recency clock `lru`, the map (modelled
as an association list in hash-map iteration order), and the generation
mark `remove_touched` of the last untouched-sweep. -/
structure Cache (K V : Type) where
  capacityStart : Nat
  capacityEnd : Nat
  lru : Nat
  map : List (K × Rec V)
  remove_touched : Nat
deriving DecidableEq, Repr

/-- Value of `usize::MAX` on the 64-bit targets the crate is built for;
`Cache::new` uses it as the unbounded capacity. -/
def usizeMax : Nat := 2 ^ 64 - 1

/-- Source `Cache::with_capacity` (src/lib.rs lines 32-45). -/
def Cache.withCapacity (low high : Nat) : Cache K V :=
  ⟨low, high, 0, [], 0⟩

/-- Source `Cache::new` (src/lib.rs lines 28-30): capacity
`usize::MAX..=usize::MAX`. -/
def Cache.new : Cache K V :=
  Cache.withCapacity usizeMax usizeMax

/-- Source `Cache::contains_key` (src/lib.rs lines 93-99). -/
def Cache.contains_key [DecidableEq K] (c : Cache K V) (k : K) : Bool :=
  (c.map.find? (fun e => decide (e.1 = k))).isSome

/-- Source `Cache::get` (src/lib.rs lines 101-113): on a hit the record's
stamp is set to `self.lru.inc()` — the clock's previous value, the clock
advancing by one — and the value is returned. -/
def Cache.get [DecidableEq K] (c : Cache K V) (k : K) : Option V × Cache K V :=
  match c.map.find? (fun e => decide (e.1 = k)) with
  | some e =>
    (some e.2.val,
     { c with
        lru := c.lru + 1,
        map := c.map.map (fun e2 => if e2.1 = k then (e2.1, ⟨c.lru, e2.2.val⟩) else e2) })
  | none => (none, c)

/-- Source `Cache::get_mut` (src/lib.rs lines 115-127): the same lookup
and stamping as `get` through the exclusive-access counter path. -/
def Cache.get_mut [DecidableEq K] (c : Cache K V) (k : K) : Option V × Cache K V :=
  Cache.get c k

/-- Source `Cache::remove_lru` (src/lib.rs lines 185-201): clamp the
count, snapshot the (key, stamp) pairs, select with
`find_lru_item_to_remove`, and delete each selected key. -/
def Cache.remove_lru [DecidableEq K] (c : Cache K V) (remove_count : Nat) :
    Cache K V :=
  let rc := min c.map.length remove_count
  let page := find_lru_item_to_remove (c.map.map (fun e => (e.1, e.2.lru))) rc Prod.snd
  { c with map := page.foldl (fun m e => m.eraseP (fun kr => decide (kr.1 = e.1))) c.map }

/-- Source `Cache::optimize_capacity` (src/lib.rs lines 162-175):
when `len ≥ high`, evict `max((max(len, high)).saturating_sub(low), 1)`
entries. -/
def Cache.optimize_capacity [DecidableEq K] (c : Cache K V) : Cache K V :=
  if c.map.length ≥ c.capacityEnd then
    let e := max c.map.length c.capacityEnd
    let remove_count := max (e - c.capacityStart) 1
    c.remove_lru remove_count
  else c

/-- Source `Cache::insert` (src/lib.rs lines 141-160): draw a stamp
(`self.lru.inc_mut()` returns the previous clock value), replace in place
on a hit, otherwise run the capacity check and append a fresh record. -/
def Cache.insert [DecidableEq K] (c : Cache K V) (k : K) (v : V) :
    Option V × Cache K V :=
  let lru := c.lru
  let c1 : Cache K V := { c with lru := c.lru + 1 }
  match c1.map.find? (fun e => decide (e.1 = k)) with
  | some e =>
    (some e.2.val,
     { c1 with map := c1.map.map (fun e2 => if e2.1 = k then (e2.1, ⟨lru, v⟩) else e2) })
  | none =>
    let c2 := c1.optimize_capacity
    (none, { c2 with map := c2.map ++ [(k, ⟨lru, v⟩)] })

/-- Source `Cache::remove` (src/lib.rs lines 177-183). -/
def Cache.remove [DecidableEq K] (c : Cache K V) (k : K) : Option V × Cache K V :=
  match c.map.find? (fun e => decide (e.1 = k)) with
  | some e => (some e.2.val, { c with map := c.map.eraseP (fun e2 => decide (e2.1 = k)) })
  | none => (none, c)

/-- Source `Cache::remove_untouched_if` (src/lib.rs lines 242-253):
retain the records stamped at or above the previous mark, or failing
`cond`; then move the mark to the clock's current value. `cond` is
modelled as a pure predicate. -/
def Cache.remove_untouched_if (c : Cache K V) (cond : K → V → Bool) : Cache K V :=
  let lru := c.lru
  let remove_touched := c.remove_touched
  { c with
    map := c.map.filter (fun e => decide (e.2.lru ≥ remove_touched) || !cond e.1 e.2.val),
    remove_touched := lru }

/-- Source `Cache::remove_untouched` (src/lib.rs lines 221-223). -/
def Cache.remove_untouched (c : Cache K V) : Cache K V :=
  c.remove_untouched_if (fun _ _ => true)

/-- Source `Cache::retain` (src/lib.rs lines 255-260). -/
def Cache.retain (c : Cache K V) (f : K → V → Bool) : Cache K V :=
  { c with map := c.map.filter (fun e => f e.1 e.2.val) }

/-- The cache operations a caller may interleave between inserts without
touching the configured capacity range (src/lib.rs public surface minus
`set_capacity`, which replaces the range the capacity claim is about). -/
inductive COp (K V : Type) where
  | insert (k : K) (v : V)
  | get (k : K)
  | getMut (k : K)
  | remove (k : K)
  | removeLru (n : Nat)
  | removeUntouched
  | removeUntouchedIf (cond : K → V → Bool)
  | retain (f : K → V → Bool)

/-- Apply one operation, discarding the returned value. -/
def Cache.applyOp [DecidableEq K] (c : Cache K V) : COp K V → Cache K V
  | .insert k v => (c.insert k v).2
  | .get k => (c.get k).2
  | .getMut k => (c.get_mut k).2
  | .remove k => (c.remove k).2
  | .removeLru n => c.remove_lru n
  | .removeUntouched => c.remove_untouched
  | .removeUntouchedIf cond => c.remove_untouched_if cond
  | .retain f => c.retain f

/-- Run a sequence of cache operations. -/
def Cache.runOps [DecidableEq K] (c : Cache K V) (ops : List (COp K V)) : Cache K V :=
  ops.foldl Cache.applyOp c

/-- Source `ArcHashSet::new` (src/arc_hash_set.rs lines 12-14). -/
def ArcHashSet.new : ArcHashSet V :=
  ⟨0, []⟩

/-- The dedup cache (src/cache_dedup.rs lines 10-13): a bounded cache of
shared handles plus the interning set. A cache value `(id, v) : Nat × V`
is the `Arc<V>` handle with allocation identity `id`. -/
structure CacheDedup (K V : Type) where
  cache : Cache K (Nat × V)
  groups : ArcHashSet V
deriving Repr

/-- Source `CacheDedup::with_capacity` (src/cache_dedup.rs lines 27-32). -/
def CacheDedup.withCapacity (low high : Nat) : CacheDedup K V :=
  ⟨Cache.withCapacity low high, ArcHashSet.new⟩

/-- Reference count `Arc::strong_count(&v)` as observed at
src/cache_dedup.rs line 67: the displaced handle `v` is held by the local
binding (the `1`), by the interning set if a handle with its allocation
identity is interned, and by every cache entry still carrying the same
allocation. -/
def CacheDedup.strong_count [DecidableEq K] (d : CacheDedup K V) (h : Nat × V) : Nat :=
  1 + (if d.groups.elems.any (fun a => decide (a.1 = h.1)) then 1 else 0)
    + d.cache.map.countP (fun e => decide (e.2.val.1 = h.1))

/-- The trailing `self.cache.get(&key).unwrap()` of
src/cache_dedup.rs line 73 (a touching lookup); `none` models a panic. -/
def CacheDedup.finalize [DecidableEq K] (d : CacheDedup K V) (k : K) :
    Option ((Nat × V) × CacheDedup K V) :=
  match Cache.get d.cache k with
  | (some h, c2) => some (h, { d with cache := c2 })
  | (none, _) => none

/-- Source `CacheDedup::get_or_init` (src/cache_dedup.rs lines 59-74):
on a miss, intern the value, insert the handle under the key, and — if the
insert displaced a handle whose reference count is exactly 1 — remove that
handle from the set; finally return the handle stored for the key. -/
def CacheDedup.get_or_init [DecidableEq K] [DecidableEq V]
    (d : CacheDedup K V) (k : K) (v : V) : Option ((Nat × V) × CacheDedup K V) :=
  if d.cache.contains_key k then
    CacheDedup.finalize d k
  else
    match d.groups.get_or_init v with
    | none => none
    | some (val, groups2) =>
      let res := d.cache.insert k val
      let d2 : CacheDedup K V := ⟨res.2, groups2⟩
      match res.1 with
      | some vOld =>
        if CacheDedup.strong_count d2 vOld = 1 then
          CacheDedup.finalize ⟨d2.cache, d2.groups.remove vOld.2⟩ k
        else
          CacheDedup.finalize d2 k
      | none => CacheDedup.finalize d2 k

/-- C4: for every cache state and predicate `cond`,
`remove_untouched_if cond` removes exactly the entries whose stamp is
below the generation mark recorded at the previous sweep and for which
`cond` holds, leaves every other entry (key, value and stamp) unchanged,
and then sets the generation mark to the clock's current value;
`remove_untouched` is the same with `cond` always true. -/
theorem remove_untouched_if_spec (c : Cache K V) (cond : K → V → Bool) :
    c.remove_untouched_if cond =
      { c with
        map := c.map.filter
          (fun e => !(decide (e.2.lru < c.remove_touched) && cond e.1 e.2.val)),
        remove_touched := c.lru } ∧
    c.remove_untouched = c.remove_untouched_if (fun _ _ => true) := by
  refine ⟨?_, rfl⟩
  unfold Cache.remove_untouched_if
  have hf : ∀ e ∈ c.map,
      (decide (e.2.lru ≥ c.remove_touched) || !cond e.1 e.2.val) =
      (!(decide (e.2.lru < c.remove_touched) && cond e.1 e.2.val)) := by
    intro e _
    by_cases h : e.2.lru < c.remove_touched
    · simp [h, Nat.not_le.mpr h]
    · simp [h, Nat.not_lt.mp h]
  simp only [List.filter_congr hf]

/-- C5: from the `Empty` state, a failing initializer's error is returned
verbatim, nothing is cached (the whole state, age counter included, is
unchanged, so the slot is `Empty` afterward), and the very next
`get_or_try_init_async` call runs its initializer from scratch,
succeeding and installing `Ready` when that initializer succeeds. -/
theorem get_or_try_init_async_error_path (w : IslandWorld T) (e : E)
    (h : w.cell = CellState.empty) :
    CacheIsland.get_or_try_init_async w (Except.error e) = (Except.error e, w) ∧
    ∀ t : T,
      CacheIsland.get_or_try_init_async
          (CacheIsland.get_or_try_init_async w (Except.error e)).2
          (Except.ok t : Except E T) =
        (Except.ok t, ⟨CellState.ready t w.globalAge, w.globalAge + 1⟩) := by
  obtain ⟨cell, g⟩ := w
  cases h
  exact ⟨rfl, fun t => rfl⟩

/-- C5 witness: the error path at a concrete empty cell. -/
theorem get_or_try_init_async_error_path_witness :
    CacheIsland.get_or_try_init_async (⟨CellState.empty, 0⟩ : IslandWorld Nat)
        (Except.error "boom") =
      (Except.error "boom", ⟨CellState.empty, 0⟩) ∧
    ∀ t : Nat,
      CacheIsland.get_or_try_init_async
          (CacheIsland.get_or_try_init_async (⟨CellState.empty, 0⟩ : IslandWorld Nat)
            (Except.error "boom")).2 (Except.ok t : Except String Nat) =
        (Except.ok t, ⟨CellState.ready t 0, 1⟩) :=
  get_or_try_init_async_error_path (⟨CellState.empty, 0⟩ : IslandWorld Nat) "boom" rfl

/-- C8: `clear_if_untouched_since t` clears to `Empty` exactly when the
cell is `Ready` with recorded age at most `t`; in every other case the
whole state (cell state, stored value, recorded age and the global
counter) is unchanged. -/
theorem clear_if_untouched_since_spec (w : IslandWorld T) (t : Nat) :
    (w.cell = CellState.empty → CacheIsland.clear_if_untouched_since w t = w) ∧
    (∀ v a, w.cell = CellState.ready v a →
      (a ≤ t →
        CacheIsland.clear_if_untouched_since w t = { w with cell := CellState.empty }) ∧
      (¬ a ≤ t → CacheIsland.clear_if_untouched_since w t = w)) := by
  obtain ⟨cell, g⟩ := w
  constructor
  · intro h; cases h; rfl
  · intro v a h
    cases h
    constructor
    · intro hle
      simp [CacheIsland.clear_if_untouched_since, hle]
    · intro hgt
      simp [CacheIsland.clear_if_untouched_since, hgt]

/-- C8 witness: a ready cell with age 2 is cleared at threshold 3. -/
theorem clear_if_untouched_since_spec_witness :
    CacheIsland.clear_if_untouched_since
        (⟨CellState.ready 5 2, 7⟩ : IslandWorld Nat) 3 =
      ⟨CellState.empty, 7⟩ :=
  ((clear_if_untouched_since_spec (⟨CellState.ready 5 2, 7⟩ : IslandWorld Nat) 3).2
    5 2 rfl).1 (by decide)

/-- C6 counterexample: the claim says the cell's `Empty`-forcing operation
`take()` returns the previously stored value; the source's only such
operation is `clear`, whose result retains no trace of the stored value —
no function of `clear`'s output can produce what the spec-worded
`take_spec` returns, as the two worlds `⟨ready 5 0, 3⟩` and `⟨empty, 3⟩`
show concretely. -/
theorem clear_returns_no_value :
    ¬ ∃ g : IslandWorld Nat → Option Nat,
        ∀ w : IslandWorld Nat, g (CacheIsland.clear w) = (CacheIsland.take_spec w).1 := by
  rintro ⟨g, hg⟩
  have h1 : g ⟨CellState.empty, 3⟩ = none := hg ⟨CellState.empty, 3⟩
  have h2 : g ⟨CellState.empty, 3⟩ = some 5 := hg ⟨CellState.ready 5 0, 3⟩
  rw [h1] at h2
  exact Option.noConfusion h2

/-- C6 (amended): `replace(value)` forces `Ready(value)` (at a fresh age
tick) and returns the previously stored value if any (`none` when the
cell was `Empty`); the `Empty`-forcing operation `clear()` forces `Empty`
but discards the previously stored value instead of returning it. -/
theorem replace_clear_spec (w : IslandWorld T) (v : T) :
    (CacheIsland.replace w v).2 = ⟨CellState.ready v w.globalAge, w.globalAge + 1⟩ ∧
    (∀ u a, w.cell = CellState.ready u a → (CacheIsland.replace w v).1 = some u) ∧
    (w.cell = CellState.empty → (CacheIsland.replace w v).1 = none) ∧
    CacheIsland.clear w = { w with cell := CellState.empty } := by
  refine ⟨rfl, ?_, ?_, rfl⟩
  · intro u a h
    simp [CacheIsland.replace, h]
  · intro h
    simp [CacheIsland.replace, h]

/-- C6 witness: `replace` on a concrete ready cell. -/
theorem replace_clear_spec_witness :
    (CacheIsland.replace (⟨CellState.ready 7 1, 5⟩ : IslandWorld Nat) 9).1 = some 7 :=
  (replace_clear_spec (⟨CellState.ready 7 1, 5⟩ : IslandWorld Nat) 9).2.1 7 1 rfl

/-- C7: on any interning-set state, two `get_or_init` calls with equal
values return the identical stored allocation (the same handle), and the
second call leaves the set unchanged. -/
theorem get_or_init_interning [DecidableEq V] (s : ArcHashSet V) (v : V) :
    ∃ h s2, s.get_or_init v = some (h, s2) ∧ s2.get_or_init v = some (h, s2) := by
  rcases hf : s.elems.find? (fun a => decide (a.2 = v)) with - | a
  · have hsingle :
        List.find? (fun b => decide (b.2 = v)) [((s.nextId, v) : Nat × V)] =
          some (s.nextId, v) := by
      simp [List.find?]
    have happ :
        (s.elems ++ [((s.nextId, v) : Nat × V)]).find? (fun b => decide (b.2 = v)) =
          some (s.nextId, v) := by
      rw [List.find?_append, hf, hsingle]
      rfl
    refine ⟨(s.nextId, v), ⟨s.nextId + 1, s.elems ++ [(s.nextId, v)]⟩, ?_, ?_⟩
    · simp only [ArcHashSet.get_or_init, hf, happ]
    · simp only [ArcHashSet.get_or_init, happ]
  · exact ⟨a, s, by simp only [ArcHashSet.get_or_init, hf],
      by simp only [ArcHashSet.get_or_init, hf]⟩

/-- A `getD` at an in-range index is a member of the list. -/
theorem getD_mem_of_lt {α : Type} (d : α) :
    ∀ (l : List α) (j : Nat), j < l.length → l.getD j d ∈ l := by
  intro l
  induction l with
  | nil => intro j hj; simp at hj
  | cons a t ih =>
    intro j hj
    match j with
    | 0 => exact List.mem_cons_self a t
    | j + 1 =>
      have : t.getD j d ∈ t := ih j (by simpa using hj)
      simp [List.getD]
      right
      simpa [List.getD] using this

/-- Pairwise relations transport to `getD` values at increasing in-range
indices. -/
theorem pairwise_getD {α : Type} {R : α → α → Prop} (d : α) :
    ∀ (l : List α), List.Pairwise R l →
      ∀ i j, i < j → j < l.length → R (l.getD i d) (l.getD j d) := by
  intro l
  induction l with
  | nil => intro _ i j _ hj; simp at hj
  | cons a t ih =>
    intro hp i j hij hj
    rcases List.pairwise_cons.mp hp with ⟨ha, ht⟩
    match i, j with
    | 0, j + 1 =>
      have hjlen : j < t.length := by simpa using hj
      have : t.getD j d ∈ t := getD_mem_of_lt d t j hjlen
      simpa [List.getD] using ha _ this
    | i + 1, j + 1 =>
      have := ih ht i j (by omega) (by simpa using hj)
      simpa [List.getD] using this

/-- Reflexive-or-increasing version of `pairwise_getD` for `≤`-chains. -/
theorem pairwise_getD_le (d : Nat) (l : List Nat)
    (hp : List.Pairwise (fun a b : Nat => a ≤ b) l) :
    ∀ i j, i ≤ j → j < l.length → l.getD i d ≤ l.getD j d := by
  intro i j hij hj
  rcases Nat.eq_or_lt_of_le hij with h | h
  · cases h; exact Nat.le_refl _
  · exact pairwise_getD d l hp i j h hj

/-- The age list of a pair list agrees with its `getD` projections. -/
theorem getD_map_snd {ι : Type} :
    ∀ (l : List (ι × Nat)) (j : Nat) (d : ι × Nat), j < l.length →
      (l.map Prod.snd).getD j 0 = (l.getD j d).2 := by
  intro l
  induction l with
  | nil => intro j d hj; simp at hj
  | cons a t ih =>
    intro j d hj
    match j with
    | 0 => rfl
    | j + 1 => simpa [List.getD] using ih j d (by simpa using hj)

/-- The last element of a nonempty list is its `getD` at `length - 1`. -/
theorem getLast?_eq_getD {α : Type} (d : α) :
    ∀ (l : List α), l ≠ [] → l.getLast? = some (l.getD (l.length - 1) d) := by
  intro l
  induction l with
  | nil => intro h; exact absurd rfl h
  | cons a t ih =>
    intro _
    match t, ih with
    | [], _ => rfl
    | b :: t2, ih =>
      have := ih (by simp)
      simpa [List.getLast?_cons_cons, List.getD] using this

/-- Subpermutations are preserved by `List.map`. -/
theorem subperm_map {α β : Type} (g : α → β) {l₁ l₂ : List α}
    (h : l₁.Subperm l₂) : (l₁.map g).Subperm (l₂.map g) := by
  obtain ⟨w, hw, hsub⟩ := h
  exact ⟨w.map g, hw.map g, hsub.map g⟩

/-- A subpermutation of a duplicate-free list is duplicate-free. -/
theorem subperm_nodup {α : Type} {l₁ l₂ : List α} (h : l₁.Subperm l₂)
    (h2 : l₂.Nodup) : l₁.Nodup := by
  obtain ⟨w, hw, hsub⟩ := h
  exact hw.nodup (h2.sublist hsub)

/-- Specification of the binary-search loop, by induction on the fuel:
for a sorted age list and bracketing invariants on `(left, right)`, the
returned position splits the ages into a prefix at most `age` and a
suffix at least `age`, staying inside the bracket. -/
theorem bsAgesAux_spec (ages : List Nat) (age : Nat) :
    ∀ (fuel left right : Nat), right - left ≤ fuel → left ≤ right →
      right ≤ ages.length →
      List.Pairwise (fun a b : Nat => a ≤ b) ages →
      (∀ j, j < left → ages.getD j 0 < age) →
      (∀ j, right ≤ j → j < ages.length → age < ages.getD j 0) →
      left ≤ bsAgesAux ages age fuel left right ∧
      bsAgesAux ages age fuel left right ≤ right ∧
      (∀ j, j < bsAgesAux ages age fuel left right → ages.getD j 0 ≤ age) ∧
      (∀ j, bsAgesAux ages age fuel left right ≤ j → j < ages.length →
        age ≤ ages.getD j 0) := by
  intro fuel
  induction fuel with
  | zero =>
    intro left right hfuel hlr hrlen hs hleft hright
    have : left = right := by omega
    subst this
    refine ⟨Nat.le_refl _, Nat.le_refl _, ?_, ?_⟩
    · intro j hj; exact Nat.le_of_lt (hleft j hj)
    · intro j hj hjlen; exact Nat.le_of_lt (hright j hj hjlen)
  | succ fuel ih =>
    intro left right hfuel hlr hrlen hs hleft hright
    simp only [bsAgesAux]
    by_cases hlt : left < right
    · rw [if_pos hlt]
      have hmidlt : left + (right - left) / 2 < right := by omega
      have hmidge : left ≤ left + (right - left) / 2 := by omega
      have hmidlen : left + (right - left) / 2 < ages.length := by omega
      by_cases hc1 : ages.getD (left + (right - left) / 2) 0 < age
      · rw [if_pos hc1]
        have hleft2 : ∀ j, j < left + (right - left) / 2 + 1 → ages.getD j 0 < age := by
          intro j hj
          by_cases hjl : j < left
          · exact hleft j hjl
          · have : ages.getD j 0 ≤ ages.getD (left + (right - left) / 2) 0 :=
              pairwise_getD_le 0 ages hs j _ (by omega) hmidlen
            omega
        have := ih (left + (right - left) / 2 + 1) right (by omega) (by omega)
          hrlen hs hleft2 hright
        exact ⟨by omega, this.2.1, this.2.2.1, this.2.2.2⟩
      · rw [if_neg hc1]
        by_cases hc2 : age < ages.getD (left + (right - left) / 2) 0
        · rw [if_pos hc2]
          have hright2 : ∀ j, left + (right - left) / 2 ≤ j → j < ages.length →
              age < ages.getD j 0 := by
            intro j hj hjlen
            have : ages.getD (left + (right - left) / 2) 0 ≤ ages.getD j 0 :=
              pairwise_getD_le 0 ages hs _ j hj hjlen
            omega
          have := ih left (left + (right - left) / 2) (by omega) (by omega)
            (by omega) hs hleft hright2
          exact ⟨this.1, by omega, this.2.2.1, this.2.2.2⟩
        · rw [if_neg hc2]
          have heq : ages.getD (left + (right - left) / 2) 0 = age := by omega
          refine ⟨hmidge, Nat.le_of_lt hmidlt, ?_, ?_⟩
          · intro j hj
            by_cases hjl : j < left
            · exact Nat.le_of_lt (hleft j hjl)
            · have : ages.getD j 0 ≤ ages.getD (left + (right - left) / 2) 0 :=
                pairwise_getD_le 0 ages hs j _ (by omega) hmidlen
              omega
          · intro j hj hjlen
            have : ages.getD (left + (right - left) / 2) 0 ≤ ages.getD j 0 :=
              pairwise_getD_le 0 ages hs _ j hj hjlen
            omega
    · rw [if_neg hlt]
      have : left = right := by omega
      subst this
      refine ⟨Nat.le_refl _, Nat.le_refl _, ?_, ?_⟩
      · intro j hj; exact Nat.le_of_lt (hleft j hj)
      · intro j hj hjlen; exact Nat.le_of_lt (hright j hj hjlen)

/-- Specification of `binarySearchAges` on a sorted age list. -/
theorem binarySearchAges_spec (ages : List Nat) (age : Nat)
    (hs : List.Pairwise (fun a b : Nat => a ≤ b) ages) :
    binarySearchAges ages age ≤ ages.length ∧
    (∀ j, j < binarySearchAges ages age → ages.getD j 0 ≤ age) ∧
    (∀ j, binarySearchAges ages age ≤ j → j < ages.length →
      age ≤ ages.getD j 0) := by
  have := bsAgesAux_spec ages age ages.length 0 ages.length (by omega)
    (Nat.zero_le _) (Nat.le_refl _) hs (by intro j hj; omega)
    (by intro j hj hjlen; omega)
  exact ⟨this.2.1, this.2.2.1, this.2.2.2⟩

/-- Totality of the age comparison used by the buffer sort. -/
instance instAgeLeTotal {ι : Type} :
    IsTotal (ι × Nat) (fun a b : ι × Nat => a.2 ≤ b.2) :=
  ⟨fun a b => Nat.le_total a.2 b.2⟩

/-- Transitivity of the age comparison used by the buffer sort. -/
instance instAgeLeTrans {ι : Type} :
    IsTrans (ι × Nat) (fun a b : ι × Nat => a.2 ≤ b.2) :=
  ⟨fun _ _ _ hab hbc => Nat.le_trans hab hbc⟩

/-- `getD` commutes with `take` below the cut. -/
theorem getD_take_of_lt {α : Type} (d : α) (l : List α) (n j : Nat)
    (h : j < n) : (l.take n).getD j d = l.getD j d := by
  rw [List.getD_eq_getElem?_getD, List.getD_eq_getElem?_getD,
    List.getElem?_take_of_lt h]

/-- Inserting at a position that splits the ages below and above keeps the
buffer sorted. -/
theorem sorted_insertIdx {ι : Type} (x : ι × Nat) :
    ∀ (l : List (ι × Nat)) (r : Nat),
      List.Pairwise (fun a b : ι × Nat => a.2 ≤ b.2) l →
      r ≤ l.length →
      (∀ j, j < r → (l.getD j x).2 ≤ x.2) →
      (∀ j, r ≤ j → j < l.length → x.2 ≤ (l.getD j x).2) →
      List.Pairwise (fun a b : ι × Nat => a.2 ≤ b.2) (l.insertIdx r x) := by
  intro l
  induction l with
  | nil =>
    intro r _ hr _ _
    have : r = 0 := by simpa using hr
    subst this
    simp
  | cons a t ih =>
    intro r hp hr h1 h2
    rcases List.pairwise_cons.mp hp with ⟨ha, ht⟩
    match r with
    | 0 =>
      rw [List.insertIdx_zero]
      refine List.pairwise_cons.mpr ⟨?_, hp⟩
      intro c hc
      have hxa : x.2 ≤ a.2 := by
        have := h2 0 (Nat.le_refl 0) (by simp)
        simpa [List.getD] using this
      rcases List.mem_cons.mp hc with h | h
      · subst h; exact hxa
      · exact Nat.le_trans hxa (ha c h)
    | r + 1 =>
      rw [List.insertIdx_succ_cons]
      have hrt : r ≤ t.length := by simpa using hr
      refine List.pairwise_cons.mpr ⟨?_, ?_⟩
      · intro c hc
        rcases (List.mem_insertIdx hrt).mp hc with h | h
        · subst h
          have := h1 0 (Nat.succ_pos r)
          simpa [List.getD] using this
        · exact ha c h
      · refine ih r ht hrt ?_ ?_
        · intro j hj
          have := h1 (j + 1) (by omega)
          simpa [List.getD] using this
        · intro j hj hjlen
          have := h2 (j + 1) (by omega) (by simpa using Nat.succ_lt_succ hjlen)
          simpa [List.getD] using this

/-- Appending on the right preserves subpermutations. -/
theorem subperm_append_right {α : Type} (r : List α) {l₁ l₂ : List α}
    (h : l₁.Subperm l₂) : (l₁ ++ r).Subperm (l₂ ++ r) := by
  obtain ⟨w, hw, hsub⟩ := h
  exact ⟨w ++ r, hw.append_right r, hsub.append_right r⟩

/-- One `lruStep` on a sorted nonempty buffer keeps it sorted, keeps its
length, and draws its entries from the new item and the old buffer. -/
theorem lruStep_invariant {ι : Type} (page : List (ι × Nat)) (x : ι × Nat)
    (hs : List.Pairwise (fun a b : ι × Nat => a.2 ≤ b.2) page)
    (hne : page ≠ []) :
    List.Pairwise (fun a b : ι × Nat => a.2 ≤ b.2) (lruStep page x) ∧
    (lruStep page x).length = page.length ∧
    (lruStep page x).Subperm (x :: page) := by
  have hk : 0 < page.length := List.length_pos.mpr hne
  have hlast := getLast?_eq_getD x page hne
  simp only [lruStep, hlast]
  by_cases hx : x.2 < (page.getD (page.length - 1) x).2
  · rw [if_pos hx]
    have hages : List.Pairwise (fun a b : Nat => a ≤ b) (page.map Prod.snd) :=
      List.pairwise_map.mpr hs
    have hageslen : (page.map Prod.snd).length = page.length := List.length_map _ _
    obtain ⟨hble, hb1, hb2⟩ := binarySearchAges_spec (page.map Prod.snd) x.2 hages
    have hlastage : (page.map Prod.snd).getD (page.length - 1) 0 =
        (page.getD (page.length - 1) x).2 :=
      getD_map_snd page (page.length - 1) x (by omega)
    have hrk : binarySearchAges (page.map Prod.snd) x.2 ≤ page.length - 1 := by
      by_contra hcon
      have hreq : binarySearchAges (page.map Prod.snd) x.2 = page.length := by omega
      have := hb1 (page.length - 1) (by omega)
      omega
    have hdquote : page.dropLast = page.take (page.length - 1) :=
      List.dropLast_eq_take page
    have hdlen : page.dropLast.length = page.length - 1 := List.length_dropLast page
    have hgetd : ∀ j, j < page.length - 1 →
        (page.dropLast.getD j x).2 = (page.map Prod.snd).getD j 0 := by
      intro j hj
      rw [hdquote, getD_take_of_lt x page (page.length - 1) j hj]
      exact (getD_map_snd page j x (by omega)).symm
    refine ⟨?_, ?_, ?_⟩
    · refine sorted_insertIdx x page.dropLast _ (hs.sublist (List.dropLast_sublist page))
        (by omega) ?_ ?_
      · intro j hj
        rw [hgetd j (by omega)]
        exact hb1 j hj
      · intro j hj hjlen
        rw [hgetd j (by omega)]
        exact hb2 j hj (by omega)
    · rw [List.length_insertIdx _ _ (by omega)]
      omega
    · have hperm : List.Perm
          (page.dropLast.insertIdx (binarySearchAges (page.map Prod.snd) x.2) x)
          (x :: page.dropLast) := List.perm_insertIdx x _ (by omega)
      refine hperm.subperm.trans ?_
      exact (List.subperm_cons x).mpr (List.dropLast_sublist page).subperm
  · rw [if_neg hx]
    exact ⟨hs, rfl, (List.sublist_cons_self x page).subperm⟩

/-- Folding `lruStep` over any remaining input keeps the buffer sorted and
of fixed size, drawing its entries from the initial buffer and the input. -/
theorem foldl_lruStep_invariant {ι : Type} :
    ∀ (rest page : List (ι × Nat)),
      List.Pairwise (fun a b : ι × Nat => a.2 ≤ b.2) page → page ≠ [] →
      List.Pairwise (fun a b : ι × Nat => a.2 ≤ b.2) (rest.foldl lruStep page) ∧
      (rest.foldl lruStep page).length = page.length ∧
      (rest.foldl lruStep page).Subperm (page ++ rest) := by
  intro rest
  induction rest with
  | nil =>
    intro page hs _
    exact ⟨hs, rfl, by simpa using List.Subperm.refl page⟩
  | cons y rest ih =>
    intro page hs hne
    have step := lruStep_invariant page y hs hne
    have hne1 : lruStep page y ≠ [] := by
      have hlen := step.2.1
      have hpos := List.length_pos.mpr hne
      intro hcon
      rw [hcon] at hlen
      simp at hlen
      omega
    have hrec := ih (lruStep page y) step.1 hne1
    rw [List.foldl_cons]
    refine ⟨hrec.1, hrec.2.1.trans step.2.1, ?_⟩
    refine hrec.2.2.trans ?_
    refine (subperm_append_right rest step.2.2).trans ?_
    rw [List.cons_append]
    exact (List.perm_middle.symm).subperm

/-- The sorted buffer is a permutation of its input. -/
theorem ageSorted_perm {ι : Type} (l : List (ι × Nat)) :
    List.Perm (ageSorted l) l :=
  List.perm_insertionSort _ l

/-- The sorted buffer is sorted by age. -/
theorem ageSorted_sorted {ι : Type} (l : List (ι × Nat)) :
    List.Pairwise (fun a b : ι × Nat => a.2 ≤ b.2) (ageSorted l) :=
  List.sorted_insertionSort _ l

/-- Dropping the pairing from the paired-up input recovers the input. -/
theorem map_fst_pairs {ι : Type} (l : List ι) (f : ι → Nat) :
    (l.map (fun x => (x, f x))).map Prod.fst = l := by
  rw [List.map_map]
  exact List.map_id l

/-- The selector returns `min remove_count n` entries, drawn without
repetition from the input sequence, for every input and every count. -/
theorem find_lru_length_subperm {ι : Type} (l : List ι) (k : Nat) (f : ι → Nat) :
    (find_lru_item_to_remove l k f).length = min k l.length ∧
    (find_lru_item_to_remove l k f).Subperm l := by
  by_cases hk : k = 0
  · subst hk
    simp [find_lru_item_to_remove, List.nil_subperm]
  · by_cases hlen : l.length < k
    · rw [find_lru_item_to_remove, if_neg hk, if_pos hlen]
      constructor
      · rw [List.length_map, (ageSorted_perm _).length_eq, List.length_map]
        omega
      · refine List.Perm.subperm ?_
        refine ((ageSorted_perm _).map Prod.fst).trans ?_
        rw [map_fst_pairs]
    · rw [find_lru_item_to_remove, if_neg hk, if_neg hlen]
      have hkle : k ≤ l.length := by omega
      have hlen0 : (ageSorted ((l.map (fun x => (x, f x))).take k)).length = k := by
        rw [(ageSorted_perm _).length_eq, List.length_take, List.length_map]
        omega
      have hne0 : ageSorted ((l.map (fun x => (x, f x))).take k) ≠ [] := by
        intro hcon
        rw [hcon] at hlen0
        simp at hlen0
        omega
      have hfold := foldl_lruStep_invariant ((l.map (fun x => (x, f x))).drop k)
        (ageSorted ((l.map (fun x => (x, f x))).take k)) (ageSorted_sorted _) hne0
      constructor
      · rw [List.length_map, hfold.2.1, hlen0]
        omega
      · have hsub1 := hfold.2.2
        have hsub2 : ((ageSorted ((l.map (fun x => (x, f x))).take k)) ++
            (l.map (fun x => (x, f x))).drop k).Subperm (l.map (fun x => (x, f x))) := by
          refine List.Perm.subperm ?_
          refine (List.Perm.append_right _ (ageSorted_perm _)).trans ?_
          rw [List.take_append_drop]
        have := (subperm_map Prod.fst (hsub1.trans hsub2))
        rw [map_fst_pairs] at this
        exact this

/-- When the position splits the ages strictly, `insertIdx` there agrees
with the order-preserving insertion. -/
theorem insertIdx_eq_orderedInsert {ι : Type} (x : ι × Nat) :
    ∀ (l : List (ι × Nat)) (r : Nat), r ≤ l.length →
      (∀ j, j < r → (l.getD j x).2 < x.2) →
      (∀ j, r ≤ j → j < l.length → x.2 < (l.getD j x).2) →
      l.insertIdx r x = List.orderedInsert (fun a b : ι × Nat => a.2 ≤ b.2) x l := by
  intro l
  induction l with
  | nil =>
    intro r hr _ _
    have : r = 0 := by simpa using hr
    subst this
    rfl
  | cons b t ih =>
    intro r hr h1 h2
    match r with
    | 0 =>
      have hxb : x.2 < b.2 := by
        have := h2 0 (Nat.le_refl 0) (by simp)
        simpa [List.getD] using this
      rw [List.insertIdx_zero]
      simp only [List.orderedInsert]
      rw [if_pos (Nat.le_of_lt hxb)]
    | r + 1 =>
      have hbx : b.2 < x.2 := by
        have := h1 0 (Nat.succ_pos r)
        simpa [List.getD] using this
      rw [List.insertIdx_succ_cons]
      simp only [List.orderedInsert]
      rw [if_neg (by omega)]
      congr 1
      refine ih r (by simpa using hr) ?_ ?_
      · intro j hj
        have := h1 (j + 1) (by omega)
        simpa [List.getD] using this
      · intro j hj hjlen
        have := h2 (j + 1) (by omega) (by simpa using Nat.succ_lt_succ hjlen)
        simpa [List.getD] using this

/-- Taking `k` of an ordered insertion that lands strictly inside the
first `k` slots equals inserting into the first `k - 1` slots. -/
theorem take_orderedInsert_lt {ι : Type} (x : ι × Nat) :
    ∀ (s : List (ι × Nat)) (k : Nat), 1 ≤ k → k ≤ s.length →
      x.2 < (s.getD (k - 1) x).2 →
      (List.orderedInsert (fun a b : ι × Nat => a.2 ≤ b.2) x s).take k =
        List.orderedInsert (fun a b : ι × Nat => a.2 ≤ b.2) x (s.take (k - 1)) := by
  intro s
  induction s with
  | nil =>
    intro k hk hkl _
    simp at hkl
    omega
  | cons b t ih =>
    intro k hk hkl hlt
    match k with
    | 1 =>
      have hxb : x.2 < b.2 := by simpa [List.getD] using hlt
      simp only [List.orderedInsert]
      rw [if_pos (Nat.le_of_lt hxb)]
      simp
    | k + 2 =>
      simp only [List.orderedInsert]
      by_cases hxb : x.2 ≤ b.2
      · simp only [if_pos hxb]
        rw [List.take_succ_cons, List.take_succ_cons]
      · simp only [if_neg hxb]
        rw [List.take_succ_cons]
        congr 1
        have := ih (k + 1) (by omega) (by simpa using hkl) (by simpa [List.getD] using hlt)
        simpa using this

/-- Taking `k` of an ordered insertion that lands beyond the first `k`
slots of a sorted buffer leaves those slots unchanged. -/
theorem take_orderedInsert_gt {ι : Type} (x : ι × Nat) :
    ∀ (s : List (ι × Nat)) (k : Nat),
      List.Pairwise (fun a b : ι × Nat => a.2 ≤ b.2) s →
      1 ≤ k → k ≤ s.length → (s.getD (k - 1) x).2 < x.2 →
      (List.orderedInsert (fun a b : ι × Nat => a.2 ≤ b.2) x s).take k = s.take k := by
  intro s
  induction s with
  | nil =>
    intro k _ hk hkl _
    simp at hkl
    omega
  | cons b t ih =>
    intro k hp hk hkl hlt
    have hbk : b.2 ≤ ((b :: t).getD (k - 1) x).2 := by
      match k with
      | 1 => simp [List.getD]
      | k + 2 =>
        have := pairwise_getD x (b :: t) hp 0 (k + 1) (by omega) (by simpa using hkl)
        simpa [List.getD] using this
    have hxb : ¬ x.2 ≤ b.2 := by omega
    simp only [List.orderedInsert]
    rw [if_neg hxb]
    match k with
    | 1 => simp
    | k + 2 =>
      rw [List.take_succ_cons, List.take_succ_cons]
      congr 1
      exact ih (k + 1) (List.pairwise_cons.mp hp).2 (by omega) (by simpa using hkl)
        (by simpa [List.getD] using hlt)

/-- A buffer sorted by ages with pairwise-distinct ages is strictly
sorted by age. -/
theorem pairwise_lt_of_le_nodup {ι : Type} (l : List (ι × Nat))
    (hle : List.Pairwise (fun a b : ι × Nat => a.2 ≤ b.2) l)
    (hnd : (l.map Prod.snd).Nodup) :
    List.Pairwise (fun a b : ι × Nat => a.2 < b.2) l := by
  have hne : List.Pairwise (fun a b : ι × Nat => a.2 ≠ b.2) l :=
    List.pairwise_map.mp hnd
  exact (hle.and hne).imp (fun h => Nat.lt_of_le_of_ne h.1 h.2)

/-- Two strictly age-sorted permutations of one another are equal. -/
theorem sorted_nodup_perm_eq {ι : Type} (l₁ l₂ : List (ι × Nat))
    (hp : List.Perm l₁ l₂)
    (h1 : List.Pairwise (fun a b : ι × Nat => a.2 < b.2) l₁)
    (h2 : List.Pairwise (fun a b : ι × Nat => a.2 < b.2) l₂) : l₁ = l₂ := by
  haveI : IsAntisymm (ι × Nat) (fun a b : ι × Nat => a.2 < b.2) :=
    ⟨fun a b hab hba => absurd (Nat.lt_trans hab hba) (Nat.lt_irrefl _)⟩
  exact List.eq_of_perm_of_sorted hp h1 h2

/-- Sorting a buffer extended on the right by one fresh-age pair is the
ordered insertion of that pair into the sorted buffer. -/
theorem ageSorted_append_singleton {ι : Type} (P : List (ι × Nat)) (x : ι × Nat)
    (hnd : ((P ++ [x]).map Prod.snd).Nodup) :
    ageSorted (P ++ [x]) =
      List.orderedInsert (fun a b : ι × Nat => a.2 ≤ b.2) x (ageSorted P) := by
  have hperm1 : List.Perm (ageSorted (P ++ [x])) (P ++ [x]) := ageSorted_perm _
  have hperm2 : List.Perm
      (List.orderedInsert (fun a b : ι × Nat => a.2 ≤ b.2) x (ageSorted P))
      (P ++ [x]) := by
    refine (List.perm_orderedInsert _ x _).trans ?_
    refine (List.Perm.cons x (ageSorted_perm P)).trans ?_
    exact (List.perm_append_singleton x P).symm
  refine sorted_nodup_perm_eq _ _ (hperm1.trans hperm2.symm) ?_ ?_
  · refine pairwise_lt_of_le_nodup _ (ageSorted_sorted _) ?_
    exact ((hperm1.map Prod.snd).nodup_iff).mpr hnd
  · refine pairwise_lt_of_le_nodup _
      (List.Sorted.orderedInsert x (ageSorted P) (ageSorted_sorted P)) ?_
    exact ((hperm2.map Prod.snd).nodup_iff).mpr hnd

/-- With pairwise-distinct ages, one `lruStep` on the first `k` slots of
the sorted processed input yields the first `k` slots of the sorted
processed input extended by the new item. -/
theorem lruStep_take_sorted {ι : Type} (P : List (ι × Nat)) (x : ι × Nat)
    (k : Nat) (hk1 : 1 ≤ k) (hkP : k ≤ P.length)
    (hnd : ((P ++ [x]).map Prod.snd).Nodup) :
    lruStep ((ageSorted P).take k) x = (ageSorted (P ++ [x])).take k := by
  have hsl : (ageSorted P).length = P.length := (ageSorted_perm P).length_eq
  have hs : List.Pairwise (fun a b : ι × Nat => a.2 ≤ b.2) (ageSorted P) :=
    ageSorted_sorted P
  have hndsplit : (P.map Prod.snd).Nodup ∧ x.2 ∉ P.map Prod.snd := by
    rw [List.map_append] at hnd
    rcases List.nodup_append.mp hnd with ⟨h1, _, hdisj⟩
    exact ⟨h1, fun hmem => hdisj hmem (by simp)⟩
  have hnds : ((ageSorted P).map Prod.snd).Nodup :=
    ((ageSorted_perm P).map Prod.snd).nodup_iff.mpr hndsplit.1
  have hxnotins : x.2 ∉ (ageSorted P).map Prod.snd := by
    intro hmem
    exact hndsplit.2 (((ageSorted_perm P).map Prod.snd).mem_iff.mp hmem)
  have hpagelen : ((ageSorted P).take k).length = k := by
    rw [List.length_take]
    omega
  have hpagene : (ageSorted P).take k ≠ [] := by
    intro hcon
    rw [hcon] at hpagelen
    simp at hpagelen
    omega
  have hpagesorted : List.Pairwise (fun a b : ι × Nat => a.2 ≤ b.2)
      ((ageSorted P).take k) := hs.sublist (List.take_sublist k _)
  have hgetdpage : ∀ j, j < k →
      ((ageSorted P).take k).getD j x = (ageSorted P).getD j x := by
    intro j hj
    exact getD_take_of_lt x _ k j hj
  have hlast : ((ageSorted P).take k).getLast? =
      some ((ageSorted P).getD (k - 1) x) := by
    rw [getLast?_eq_getD x _ hpagene, hpagelen, hgetdpage (k - 1) (by omega)]
  have hrhs : ageSorted (P ++ [x]) =
      List.orderedInsert (fun a b : ι × Nat => a.2 ≤ b.2) x (ageSorted P) :=
    ageSorted_append_singleton P x hnd
  simp only [lruStep, hlast, hrhs]
  by_cases hxlt : x.2 < ((ageSorted P).getD (k - 1) x).2
  · rw [if_pos hxlt]
    have hageslen : (((ageSorted P).take k).map Prod.snd).length = k := by
      rw [List.length_map, hpagelen]
    have hagessorted : List.Pairwise (fun a b : Nat => a ≤ b)
        (((ageSorted P).take k).map Prod.snd) := List.pairwise_map.mpr hpagesorted
    obtain ⟨hble, hb1, hb2⟩ :=
      binarySearchAges_spec (((ageSorted P).take k).map Prod.snd) x.2 hagessorted
    have hagesmem : ∀ a, a ∈ ((ageSorted P).take k).map Prod.snd →
        a ∈ (ageSorted P).map Prod.snd := fun a ha =>
      ((List.take_sublist k _).map Prod.snd).subset ha
    have hb1s : ∀ j, j < binarySearchAges (((ageSorted P).take k).map Prod.snd) x.2 →
        (((ageSorted P).take k).map Prod.snd).getD j 0 < x.2 := by
      intro j hj
      have hle := hb1 j hj
      have hmem : (((ageSorted P).take k).map Prod.snd).getD j 0 ∈
          ((ageSorted P).take k).map Prod.snd :=
        getD_mem_of_lt 0 _ j (by omega)
      have : (((ageSorted P).take k).map Prod.snd).getD j 0 ≠ x.2 := by
        intro heq
        exact hxnotins (heq ▸ hagesmem _ hmem)
      omega
    have hb2s : ∀ j, binarySearchAges (((ageSorted P).take k).map Prod.snd) x.2 ≤ j →
        j < k → x.2 < (((ageSorted P).take k).map Prod.snd).getD j 0 := by
      intro j hj hjk
      have hle := hb2 j hj (by omega)
      have hmem : (((ageSorted P).take k).map Prod.snd).getD j 0 ∈
          ((ageSorted P).take k).map Prod.snd :=
        getD_mem_of_lt 0 _ j (by omega)
      have : (((ageSorted P).take k).map Prod.snd).getD j 0 ≠ x.2 := by
        intro heq
        exact hxnotins (heq ▸ hagesmem _ hmem)
      omega
    have hagesval : ∀ j, j < k →
        (((ageSorted P).take k).map Prod.snd).getD j 0 = ((ageSorted P).getD j x).2 := by
      intro j hj
      rw [getD_map_snd _ j x (by omega), hgetdpage j hj]
    have hrk : binarySearchAges (((ageSorted P).take k).map Prod.snd) x.2 ≤ k - 1 := by
      by_contra hcon
      have hreq : binarySearchAges (((ageSorted P).take k).map Prod.snd) x.2 = k := by
        omega
      have := hb1s (k - 1) (by omega)
      rw [hagesval (k - 1) (by omega)] at this
      omega
    have hdl : ((ageSorted P).take k).dropLast = (ageSorted P).take (k - 1) := by
      rw [List.dropLast_eq_take, hpagelen, List.take_take]
      congr 1
      omega
    rw [hdl]
    have hlhs : ((ageSorted P).take (k - 1)).insertIdx
        (binarySearchAges (((ageSorted P).take k).map Prod.snd) x.2) x =
        List.orderedInsert (fun a b : ι × Nat => a.2 ≤ b.2) x
          ((ageSorted P).take (k - 1)) := by
      refine insertIdx_eq_orderedInsert x _ _ ?_ ?_ ?_
      · rw [List.length_take]
        omega
      · intro j hj
        rw [getD_take_of_lt x _ (k - 1) j (by omega),
          ← hgetdpage j (by omega), ← getD_map_snd _ j x (by omega)]
        exact hb1s j hj
      · intro j hj hjlen
        rw [List.length_take] at hjlen
        rw [getD_take_of_lt x _ (k - 1) j (by omega),
          ← hgetdpage j (by omega), ← getD_map_snd _ j x (by omega)]
        exact hb2s j hj (by omega)
    rw [hlhs]
    exact (take_orderedInsert_lt x (ageSorted P) k hk1 (by omega) hxlt).symm
  · rw [if_neg hxlt]
    have hmem : ((ageSorted P).getD (k - 1) x).2 ∈ (ageSorted P).map Prod.snd := by
      rw [← getD_map_snd _ (k - 1) x (by omega)]
      exact getD_mem_of_lt 0 _ (k - 1) (by rw [List.length_map]; omega)
    have hne : ((ageSorted P).getD (k - 1) x).2 ≠ x.2 := by
      intro heq
      exact hxnotins (heq ▸ hmem)
    exact (take_orderedInsert_gt x (ageSorted P) k hs hk1 (by omega) (by omega)).symm

/-- Folding `lruStep` over the rest of a distinct-age input turns the
first `k` slots of the sorted prefix into the first `k` slots of the
sorted whole. -/
theorem foldl_lruStep_take {ι : Type} (k : Nat) (hk1 : 1 ≤ k) :
    ∀ (rest P : List (ι × Nat)), k ≤ P.length →
      ((P ++ rest).map Prod.snd).Nodup →
      rest.foldl lruStep ((ageSorted P).take k) = (ageSorted (P ++ rest)).take k := by
  intro rest
  induction rest with
  | nil =>
    intro P hkP _
    rw [List.append_nil]
    rfl
  | cons x rest ih =>
    intro P hkP hnd
    rw [List.foldl_cons]
    have hnd1 : ((P ++ [x]).map Prod.snd).Nodup := by
      refine hnd.sublist ?_
      refine List.Sublist.map Prod.snd ?_
      exact (List.Sublist.cons₂ x (List.nil_sublist rest)).append_left P
    rw [lruStep_take_sorted P x k hk1 hkP hnd1]
    have hassoc : (P ++ [x]) ++ rest = P ++ x :: rest := by
      rw [List.append_assoc, List.singleton_append]
    have := ih (P ++ [x]) (by rw [List.length_append]; omega) (by rw [hassoc]; exact hnd)
    rw [this, hassoc]

/-- With pairwise-distinct ages, the selector returns the first
`remove_count` entries of the input sorted ascending by age. -/
theorem find_lru_eq_take_sort {ι : Type} (l : List ι) (k : Nat) (f : ι → Nat)
    (hnd : (l.map f).Nodup) :
    find_lru_item_to_remove l k f =
      ((ageSorted (l.map (fun x => (x, f x)))).take k).map Prod.fst := by
  have hsnd : (l.map (fun x => (x, f x))).map Prod.snd = l.map f := by
    rw [List.map_map]
    rfl
  by_cases hk : k = 0
  · subst hk
    simp [find_lru_item_to_remove]
  · by_cases hlen : l.length < k
    · rw [find_lru_item_to_remove, if_neg hk, if_pos hlen]
      have hle : (ageSorted (l.map fun x => (x, f x))).length ≤ k := by
        rw [(ageSorted_perm _).length_eq, List.length_map]
        omega
      rw [List.take_of_length_le hle]
    · rw [find_lru_item_to_remove, if_neg hk, if_neg hlen]
      congr 1
      have hlenY : (ageSorted ((l.map fun x => (x, f x)).take k)).length ≤ k := by
        rw [(ageSorted_perm _).length_eq, List.length_take, List.length_map]
        omega
      have htake_init := (List.take_of_length_le hlenY).symm
      rw [htake_init]
      have hndfull : (((l.map fun x => (x, f x)).take k ++
          (l.map fun x => (x, f x)).drop k).map Prod.snd).Nodup := by
        rw [List.take_append_drop, hsnd]
        exact hnd
      have := foldl_lruStep_take k (by omega) ((l.map fun x => (x, f x)).drop k)
        ((l.map fun x => (x, f x)).take k)
        (by rw [List.length_take, List.length_map]; omega) hndfull
      rw [this, List.take_append_drop]

/-- C2: for an input sequence with pairwise-distinct (totally ordered)
ages, `find_lru_item_to_remove` returns the empty list for
`remove_count = 0`; all inputs sorted ascending by age when
`remove_count ≥ n`; and in general exactly the `remove_count`
smallest-age inputs sorted ascending by age — the first `remove_count`
entries of the age-sorted input — independently of the input order. -/
theorem find_lru_selects_k_smallest {ι : Type} (l₁ l₂ : List ι) (k : Nat)
    (f : ι → Nat) (hnd : (l₁.map f).Nodup) (hperm : List.Perm l₁ l₂) :
    find_lru_item_to_remove l₁ 0 f = [] ∧
    (l₁.length ≤ k →
      find_lru_item_to_remove l₁ k f =
        (ageSorted (l₁.map (fun x => (x, f x)))).map Prod.fst) ∧
    find_lru_item_to_remove l₁ k f =
      ((ageSorted (l₁.map (fun x => (x, f x)))).take k).map Prod.fst ∧
    find_lru_item_to_remove l₁ k f = find_lru_item_to_remove l₂ k f := by
  have hmaster := find_lru_eq_take_sort l₁ k f hnd
  refine ⟨by simp [find_lru_item_to_remove], ?_, hmaster, ?_⟩
  · intro hlen
    rw [hmaster]
    congr 1
    refine List.take_of_length_le ?_
    rw [(ageSorted_perm _).length_eq, List.length_map]
    omega
  · have hnd₂ : (l₂.map f).Nodup := ((hperm.map f).nodup_iff).mp hnd
    have hsorteq : ageSorted (l₁.map (fun x => (x, f x))) =
        ageSorted (l₂.map (fun x => (x, f x))) := by
      have hpairperm : List.Perm (l₁.map (fun x => (x, f x)))
          (l₂.map (fun x => (x, f x))) := hperm.map _
      have hsndnd : ∀ (l : List ι), (l.map f).Nodup →
          ((ageSorted (l.map (fun x => (x, f x)))).map Prod.snd).Nodup := by
        intro l hl
        refine ((ageSorted_perm _).map Prod.snd).nodup_iff.mpr ?_
        rw [List.map_map]
        exact hl
      refine sorted_nodup_perm_eq _ _ ?_ ?_ ?_
      · exact (ageSorted_perm _).trans (hpairperm.trans (ageSorted_perm _).symm)
      · exact pairwise_lt_of_le_nodup _ (ageSorted_sorted _) (hsndnd l₁ hnd)
      · exact pairwise_lt_of_le_nodup _ (ageSorted_sorted _) (hsndnd l₂ hnd₂)
    rw [hmaster, find_lru_eq_take_sort l₂ k f hnd₂, hsorteq]

/-- C2 witness: the selector at `k = 2` on a concrete 3-element input and
a permutation of it. -/
theorem find_lru_selects_k_smallest_witness :
    find_lru_item_to_remove [5, 1, 4] 0 id = [] ∧
    (([5, 1, 4] : List Nat).length ≤ 2 →
      find_lru_item_to_remove [5, 1, 4] 2 id =
        (ageSorted (([5, 1, 4] : List Nat).map (fun x => (x, id x)))).map Prod.fst) ∧
    find_lru_item_to_remove [5, 1, 4] 2 id =
      ((ageSorted (([5, 1, 4] : List Nat).map (fun x => (x, id x)))).take 2).map
        Prod.fst ∧
    find_lru_item_to_remove [5, 1, 4] 2 id = find_lru_item_to_remove [4, 5, 1] 2 id :=
  find_lru_selects_k_smallest [5, 1, 4] [4, 5, 1] 2 id (by decide) (by decide)

/-- Erasing by a key predicate commutes with projecting the keys. -/
theorem map_fst_eraseP {K V : Type} (p : K → Bool) :
    ∀ (m : List (K × Rec V)),
      (m.eraseP (fun kr => p kr.1)).map Prod.fst = (m.map Prod.fst).eraseP p := by
  intro m
  induction m with
  | nil => rfl
  | cons e m ih =>
    by_cases hp : p e.1
    · have h1 : (e :: m).eraseP (fun kr => p kr.1) = m :=
        List.eraseP_cons_of_pos hp
      rw [h1, List.map_cons, List.eraseP_cons_of_pos hp]
    · have h1 : (e :: m).eraseP (fun kr => p kr.1) = e :: m.eraseP (fun kr => p kr.1) :=
        List.eraseP_cons_of_neg hp
      rw [h1, List.map_cons, List.map_cons, List.eraseP_cons_of_neg hp, ih]

/-- The removal loop of `remove_lru` is a sublist of the original map. -/
theorem foldl_eraseP_sublist {K V : Type} [DecidableEq K] :
    ∀ (page : List (K × Nat)) (m : List (K × Rec V)),
      (page.foldl (fun m e => m.eraseP (fun kr => decide (kr.1 = e.1))) m).Sublist m := by
  intro page
  induction page with
  | nil => intro m; exact List.Sublist.refl m
  | cons e page ih =>
    intro m
    rw [List.foldl_cons]
    exact (ih _).trans (List.eraseP_sublist m)

/-- The removal loop of `remove_lru` deletes exactly one entry per
selected key, when the selected keys are distinct and present in a map
with distinct keys. -/
theorem foldl_eraseP_length {K V : Type} [DecidableEq K] :
    ∀ (page : List (K × Nat)) (m : List (K × Rec V)),
      (m.map Prod.fst).Nodup →
      (page.map Prod.fst).Nodup →
      (∀ e ∈ page, e.1 ∈ m.map Prod.fst) →
      (page.foldl (fun m e => m.eraseP (fun kr => decide (kr.1 = e.1))) m).length
        = m.length - page.length := by
  intro page
  induction page with
  | nil => intro m _ _ _; simp
  | cons e page ih =>
    intro m hm hp hmem
    rw [List.foldl_cons]
    have hkey : e.1 ∈ m.map Prod.fst := hmem e (List.mem_cons_self e page)
    have hmpos : 0 < m.length := by
      rcases List.mem_map.mp hkey with ⟨a, ha, -⟩
      exact List.length_pos.mpr (List.ne_nil_of_mem ha)
    have hlen1 : (m.eraseP (fun kr => decide (kr.1 = e.1))).length = m.length - 1 := by
      rcases List.mem_map.mp hkey with ⟨a, ha, hae⟩
      exact List.length_eraseP_of_mem ha (by simp [hae])
    have hkeys1 : (m.eraseP (fun kr => decide (kr.1 = e.1))).map Prod.fst
        = (m.map Prod.fst).eraseP (fun x => decide (x = e.1)) :=
      map_fst_eraseP (fun x => decide (x = e.1)) m
    rcases List.nodup_cons.mp (by rw [← List.map_cons]; exact hp) with ⟨hefst, hptail⟩
    have hm1 : ((m.eraseP (fun kr => decide (kr.1 = e.1))).map Prod.fst).Nodup :=
      hm.sublist ((List.eraseP_sublist m).map Prod.fst)
    have hmem1 : ∀ x ∈ page,
        x.1 ∈ (m.eraseP (fun kr => decide (kr.1 = e.1))).map Prod.fst := by
      intro x hx
      rw [hkeys1]
      have hxm : x.1 ∈ m.map Prod.fst := hmem x (List.mem_cons_of_mem e hx)
      have hxe : ¬ x.1 = e.1 := by
        intro heq
        exact hefst (heq ▸ List.mem_map_of_mem Prod.fst hx)
      exact (List.mem_eraseP_of_neg (by simp [hxe])).mpr hxm
    rw [ih _ hm1 hptail hmem1, hlen1, List.length_cons]
    omega

/-- All fields of `remove_lru` other than the map are unchanged. -/
theorem remove_lru_fields {K V : Type} [DecidableEq K] (c : Cache K V) (n : Nat) :
    (c.remove_lru n).capacityStart = c.capacityStart ∧
    (c.remove_lru n).capacityEnd = c.capacityEnd ∧
    (c.remove_lru n).lru = c.lru :=
  ⟨rfl, rfl, rfl⟩

/-- The `remove_lru` result is a sublist of the original map. -/
theorem remove_lru_sublist {K V : Type} [DecidableEq K] (c : Cache K V) (n : Nat) :
    (c.remove_lru n).map.Sublist c.map :=
  foldl_eraseP_sublist _ c.map

/-- On a map with distinct keys, `remove_lru n` removes exactly
`min (len) n` entries. -/
theorem remove_lru_length {K V : Type} [DecidableEq K] (c : Cache K V) (n : Nat)
    (hnd : (c.map.map Prod.fst).Nodup) :
    (c.remove_lru n).map.length = c.map.length - min c.map.length n := by
  have hpairslen : (c.map.map (fun e => (e.1, e.2.lru))).length = c.map.length :=
    List.length_map _ _
  have hfl := find_lru_length_subperm (c.map.map (fun e => (e.1, e.2.lru)))
    (min c.map.length n) Prod.snd
  have hpairsfst : (c.map.map (fun e => (e.1, e.2.lru))).map Prod.fst
      = c.map.map Prod.fst := by
    rw [List.map_map]
    rfl
  have hpagekeys : ((find_lru_item_to_remove (c.map.map (fun e => (e.1, e.2.lru)))
      (min c.map.length n) Prod.snd).map Prod.fst).Subperm (c.map.map Prod.fst) := by
    have := subperm_map Prod.fst hfl.2
    rwa [hpairsfst] at this
  have hpagend : ((find_lru_item_to_remove (c.map.map (fun e => (e.1, e.2.lru)))
      (min c.map.length n) Prod.snd).map Prod.fst).Nodup := subperm_nodup hpagekeys hnd
  have hpagemem : ∀ e ∈ find_lru_item_to_remove (c.map.map (fun e => (e.1, e.2.lru)))
      (min c.map.length n) Prod.snd, e.1 ∈ c.map.map Prod.fst := by
    intro e he
    exact hpagekeys.subset (List.mem_map_of_mem Prod.fst he)
  have hlen := foldl_eraseP_length _ c.map hnd hpagend hpagemem
  have hpagelen : (find_lru_item_to_remove (c.map.map (fun e => (e.1, e.2.lru)))
      (min c.map.length n) Prod.snd).length = min c.map.length n := by
    rw [hfl.1, hpairslen]
    omega
  show (List.foldl _ c.map _).length = _
  rw [hlen, hpagelen]

/-- All fields of `optimize_capacity` other than the map are unchanged. -/
theorem optimize_capacity_fields {K V : Type} [DecidableEq K] (c : Cache K V) :
    (c.optimize_capacity).capacityStart = c.capacityStart ∧
    (c.optimize_capacity).capacityEnd = c.capacityEnd ∧
    (c.optimize_capacity).lru = c.lru := by
  unfold Cache.optimize_capacity
  split
  · exact remove_lru_fields c _
  · exact ⟨rfl, rfl, rfl⟩

/-- The `optimize_capacity` result is a sublist of the original map. -/
theorem optimize_capacity_sublist {K V : Type} [DecidableEq K] (c : Cache K V) :
    (c.optimize_capacity).map.Sublist c.map := by
  unfold Cache.optimize_capacity
  split
  · exact remove_lru_sublist c _
  · exact List.Sublist.refl _

/-- After the capacity check ("optimize before grow"), a well-formed
cache within a nonempty bound `[low, high]`, `low ≤ high ∧ 1 ≤ high`, has
room for one more entry. -/
theorem optimize_capacity_length {K V : Type} [DecidableEq K] (low high : Nat)
    (hlh : low ≤ high) (hh : 1 ≤ high) (c : Cache K V)
    (hcs : c.capacityStart = low) (hce : c.capacityEnd = high)
    (hnd : (c.map.map Prod.fst).Nodup) (hlen : c.map.length ≤ high) :
    (c.optimize_capacity).map.length + 1 ≤ high := by
  unfold Cache.optimize_capacity
  by_cases hge : c.map.length ≥ c.capacityEnd
  · rw [if_pos hge]
    have hlenhigh : c.map.length = high := by omega
    have := remove_lru_length c
      (max (max c.map.length c.capacityEnd - c.capacityStart) 1) hnd
    rw [this]
    omega
  · rw [if_neg hge]
    omega

/-- The in-place record updates of `get` and `insert` leave the key list
unchanged. -/
theorem map_fst_update {K V : Type} [DecidableEq K] (m : List (K × Rec V))
    (k : K) (u : K × Rec V → Rec V) :
    (m.map (fun e2 => if e2.1 = k then (e2.1, u e2) else e2)).map Prod.fst
      = m.map Prod.fst := by
  rw [List.map_map]
  refine List.map_congr_left ?_
  intro e2 _
  by_cases h : e2.1 = k <;> simp [h]

/-- Every cache operation preserves the capacity range, keeps the keys
duplicate-free, and keeps the entry count within a bound `[low, high]`
with `low ≤ high` and `1 ≤ high`. -/
theorem applyOp_preserves {K V : Type} [DecidableEq K] (low high : Nat)
    (hlh : low ≤ high) (hh : 1 ≤ high) (c : Cache K V) (op : COp K V)
    (hcs : c.capacityStart = low) (hce : c.capacityEnd = high)
    (hnd : (c.map.map Prod.fst).Nodup) (hlen : c.map.length ≤ high) :
    (c.applyOp op).capacityStart = low ∧ (c.applyOp op).capacityEnd = high ∧
    ((c.applyOp op).map.map Prod.fst).Nodup ∧ (c.applyOp op).map.length ≤ high := by
  cases op with
  | insert k v =>
    simp only [Cache.applyOp, Cache.insert]
    rcases hf : c.map.find? (fun e => decide (e.1 = k)) with - | e
    · simp only [hf]
      have hopt := optimize_capacity_length low high hlh hh
        { c with lru := c.lru + 1 } hcs hce hnd hlen
      have hoptf := optimize_capacity_fields (K := K) (V := V)
        { c with lru := c.lru + 1 }
      have hopts := optimize_capacity_sublist (K := K) (V := V)
        { c with lru := c.lru + 1 }
      have hknotin : k ∉ (Cache.optimize_capacity
          { c with lru := c.lru + 1 }).map.map Prod.fst := by
        intro hmem
        rcases List.mem_map.mp hmem with ⟨a, ha, hak⟩
        have ham : a ∈ c.map := hopts.subset ha
        have := List.find?_eq_none.mp hf a ham
        simp [hak] at this
      have hoptnd : ((Cache.optimize_capacity
          { c with lru := c.lru + 1 }).map.map Prod.fst).Nodup :=
        hnd.sublist (hopts.map Prod.fst)
      refine ⟨hoptf.1.trans hcs, hoptf.2.1.trans hce, ?_, ?_⟩
      · show ((Cache.optimize_capacity { c with lru := c.lru + 1 }).map
            ++ [(k, (⟨c.lru, v⟩ : Rec V))]).map Prod.fst |>.Nodup
        rw [List.map_append]
        refine (List.perm_append_singleton k _).nodup_iff.mpr ?_
        exact List.nodup_cons.mpr ⟨hknotin, hoptnd⟩
      · show ((Cache.optimize_capacity { c with lru := c.lru + 1 }).map
            ++ [(k, (⟨c.lru, v⟩ : Rec V))]).length ≤ high
        rw [List.length_append]
        simpa using hopt
    · simp only [hf]
      refine ⟨hcs, hce, ?_, ?_⟩
      · show ((c.map.map (fun e2 => if e2.1 = k then (e2.1, (⟨c.lru, v⟩ : Rec V)) else e2)).map
            Prod.fst).Nodup
        rw [map_fst_update]
        exact hnd
      · show (c.map.map (fun e2 => if e2.1 = k then (e2.1, (⟨c.lru, v⟩ : Rec V)) else e2)).length
            ≤ high
        rw [List.length_map]
        exact hlen
  | get k =>
    simp only [Cache.applyOp, Cache.get]
    rcases hf : c.map.find? (fun e => decide (e.1 = k)) with - | e
    · simp only [hf]
      exact ⟨hcs, hce, hnd, hlen⟩
    · simp only [hf]
      refine ⟨hcs, hce, ?_, ?_⟩
      · show ((c.map.map (fun e2 => if e2.1 = k then (e2.1, (⟨c.lru, e2.2.val⟩ : Rec V)) else e2)).map
            Prod.fst).Nodup
        rw [map_fst_update]
        exact hnd
      · show (c.map.map (fun e2 => if e2.1 = k then (e2.1, (⟨c.lru, e2.2.val⟩ : Rec V)) else e2)).length
            ≤ high
        rw [List.length_map]
        exact hlen
  | getMut k =>
    simp only [Cache.applyOp, Cache.get_mut, Cache.get]
    rcases hf : c.map.find? (fun e => decide (e.1 = k)) with - | e
    · simp only [hf]
      exact ⟨hcs, hce, hnd, hlen⟩
    · simp only [hf]
      refine ⟨hcs, hce, ?_, ?_⟩
      · show ((c.map.map (fun e2 => if e2.1 = k then (e2.1, (⟨c.lru, e2.2.val⟩ : Rec V)) else e2)).map
            Prod.fst).Nodup
        rw [map_fst_update]
        exact hnd
      · show (c.map.map (fun e2 => if e2.1 = k then (e2.1, (⟨c.lru, e2.2.val⟩ : Rec V)) else e2)).length
            ≤ high
        rw [List.length_map]
        exact hlen
  | remove k =>
    simp only [Cache.applyOp, Cache.remove]
    rcases hf : c.map.find? (fun e => decide (e.1 = k)) with - | e
    · simp only [hf]
      exact ⟨hcs, hce, hnd, hlen⟩
    · simp only [hf]
      refine ⟨hcs, hce, ?_, ?_⟩
      · exact hnd.sublist ((List.eraseP_sublist c.map).map Prod.fst)
      · exact Nat.le_trans (List.eraseP_sublist c.map).length_le hlen
  | removeLru n =>
    refine ⟨hcs, hce, ?_, ?_⟩
    · exact hnd.sublist ((remove_lru_sublist c n).map Prod.fst)
    · exact Nat.le_trans (remove_lru_sublist c n).length_le hlen
  | removeUntouched =>
    refine ⟨hcs, hce, ?_, ?_⟩
    · exact hnd.sublist ((List.filter_sublist c.map).map Prod.fst)
    · exact Nat.le_trans (List.filter_sublist c.map).length_le hlen
  | removeUntouchedIf cond =>
    refine ⟨hcs, hce, ?_, ?_⟩
    · exact hnd.sublist ((List.filter_sublist c.map).map Prod.fst)
    · exact Nat.le_trans (List.filter_sublist c.map).length_le hlen
  | retain f =>
    refine ⟨hcs, hce, ?_, ?_⟩
    · exact hnd.sublist ((List.filter_sublist c.map).map Prod.fst)
    · exact Nat.le_trans (List.filter_sublist c.map).length_le hlen

/-- Running any operation sequence from a well-formed bounded cache keeps
it within its bound. -/
theorem runOps_preserves {K V : Type} [DecidableEq K] (low high : Nat)
    (hlh : low ≤ high) (hh : 1 ≤ high) :
    ∀ (ops : List (COp K V)) (c : Cache K V),
      c.capacityStart = low → c.capacityEnd = high →
      (c.map.map Prod.fst).Nodup → c.map.length ≤ high →
      (c.runOps ops).capacityStart = low ∧ (c.runOps ops).capacityEnd = high ∧
      ((c.runOps ops).map.map Prod.fst).Nodup ∧ (c.runOps ops).map.length ≤ high := by
  intro ops
  induction ops with
  | nil => intro c h1 h2 h3 h4; exact ⟨h1, h2, h3, h4⟩
  | cons op ops ih =>
    intro c h1 h2 h3 h4
    have hstep := applyOp_preserves low high hlh hh c op h1 h2 h3 h4
    exact ih (c.applyOp op) hstep.1 hstep.2.1 hstep.2.2.1 hstep.2.2.2

/-- C1 (amended): for a cache constructed with capacity `[low, high]`
where `low ≤ high` and `1 ≤ high`, after any operation sequence — and in
particular immediately after each `insert` returns — `len() ≤ high`.
(`high = usizeMax` is the unbounded `Cache::new` configuration.) -/
theorem insert_capacity_bound {K V : Type} [DecidableEq K] (low high : Nat)
    (hlh : low ≤ high) (hh : 1 ≤ high) (ops : List (COp K V)) (k : K) (v : V) :
    ((Cache.withCapacity low high : Cache K V).runOps ops).map.length ≤ high ∧
    ((((Cache.withCapacity low high : Cache K V).runOps ops).insert k v).2).map.length
      ≤ high := by
  have hbase := runOps_preserves low high hlh hh ops
    (Cache.withCapacity low high : Cache K V) rfl rfl (by simp [Cache.withCapacity])
    (by simp [Cache.withCapacity])
  refine ⟨hbase.2.2.2, ?_⟩
  have hins := applyOp_preserves low high hlh hh
    ((Cache.withCapacity low high : Cache K V).runOps ops) (COp.insert k v)
    hbase.1 hbase.2.1 hbase.2.2.1 hbase.2.2.2
  exact hins.2.2.2

/-- C1 counterexample: with the `low ≤ high` capacity range `0..=0`, a
single insert returns with `len() = 1 > high = 0` — `optimize_capacity`
asks for one eviction but the empty map yields none, and the new record
is inserted regardless. -/
theorem insert_capacity_bound_counterexample :
    (0 : Nat) ≤ 0 ∧
    ¬ ((((Cache.withCapacity 0 0 : Cache Nat Nat).runOps []).insert 0 0).2).map.length
      ≤ 0 :=
  ⟨Nat.le_refl 0, by decide⟩

/-- C1 witness: the doc-test configuration `2..=3` after four inserts. -/
theorem insert_capacity_bound_witness :
    (2 : Nat) ≤ 3 ∧ (1 : Nat) ≤ 3 ∧
    (((Cache.withCapacity 2 3 : Cache Nat Nat).runOps
        [COp.insert 0 0, COp.insert 1 1, COp.insert 2 2]).insert 3 3).2.map.length
      ≤ 3 :=
  ⟨by decide, by decide,
    (insert_capacity_bound 2 3 (by decide) (by decide)
      [COp.insert 0 0, COp.insert 1 1, COp.insert 2 2] 3 3).2⟩

/-- Both `unwrap`s inside `ArcHashSet::get_or_init` succeed: the
operation always returns a handle and a set. -/
theorem arcHashSet_get_or_init_total {V : Type} [DecidableEq V]
    (s : ArcHashSet V) (v : V) :
    ∃ h s2, s.get_or_init v = some (h, s2) := by
  rcases hf : s.elems.find? (fun a => decide (a.2 = v)) with - | a
  · have happ :
        (s.elems ++ [((s.nextId, v) : Nat × V)]).find? (fun b => decide (b.2 = v)) =
          some (s.nextId, v) := by
      rw [List.find?_append, hf]
      simp [List.find?]
    refine ⟨(s.nextId, v), ⟨s.nextId + 1, s.elems ++ [(s.nextId, v)]⟩, ?_⟩
    simp only [ArcHashSet.get_or_init, hf, happ]
  · exact ⟨a, s, by simp only [ArcHashSet.get_or_init, hf]⟩

/-- C10: `CacheDedup::get_or_init` never panics — in both the key-present
and key-absent paths the trailing `self.cache.get(&key).unwrap()` finds
the key (the capacity check of `insert` runs before the new record is
appended, so the just-inserted key cannot have been evicted), and a
handle for the key is returned. -/
theorem cacheDedup_get_or_init_total {K V : Type} [DecidableEq K] [DecidableEq V]
    (d : CacheDedup K V) (k : K) (v : V) :
    ∃ h d2, CacheDedup.get_or_init d k v = some (h, d2) := by
  have hfinal : ∀ (d3 : CacheDedup K V) (e : K × Rec (Nat × V)),
      d3.cache.map.find? (fun e2 => decide (e2.1 = k)) = some e →
      ∃ h d2, CacheDedup.finalize d3 k = some (h, d2) := by
    intro d3 e hf
    unfold CacheDedup.finalize Cache.get
    rw [hf]
    exact ⟨e.2.val, _, rfl⟩
  unfold CacheDedup.get_or_init
  by_cases hc : d.cache.contains_key k
  · rw [if_pos hc]
    rcases hfind : d.cache.map.find? (fun e => decide (e.1 = k)) with - | e
    · exfalso
      unfold Cache.contains_key at hc
      rw [hfind] at hc
      simp at hc
    · exact hfinal d e hfind
  · rw [if_neg hc]
    have hfind : d.cache.map.find? (fun e => decide (e.1 = k)) = none := by
      unfold Cache.contains_key at hc
      rcases hf2 : d.cache.map.find? (fun e => decide (e.1 = k)) with - | e
      · exact hf2
      · rw [hf2] at hc
        simp at hc
    obtain ⟨h0, s2, hgoi⟩ := arcHashSet_get_or_init_total d.groups v
    simp only [hgoi]
    have hres : Cache.insert d.cache k h0 =
        (none,
         { Cache.optimize_capacity { d.cache with lru := d.cache.lru + 1 } with
           map := (Cache.optimize_capacity
             { d.cache with lru := d.cache.lru + 1 }).map
             ++ [(k, ⟨d.cache.lru, h0⟩)] }) := by
      simp only [Cache.insert, hfind]
    simp only [hres]
    have hopts := optimize_capacity_sublist
      (K := K) (V := Nat × V) { d.cache with lru := d.cache.lru + 1 }
    have hnone2 : (Cache.optimize_capacity
        { d.cache with lru := d.cache.lru + 1 }).map.find?
        (fun e => decide (e.1 = k)) = none := by
      refine List.find?_eq_none.mpr ?_
      intro e he
      exact List.find?_eq_none.mp hfind e (hopts.subset he)
    have happ : ((Cache.optimize_capacity
        { d.cache with lru := d.cache.lru + 1 }).map
        ++ [(k, (⟨d.cache.lru, h0⟩ : Rec (Nat × V)))]).find?
        (fun e => decide (e.1 = k)) = some (k, ⟨d.cache.lru, h0⟩) := by
      rw [List.find?_append, hnone2]
      simp [List.find?]
    exact hfinal _ _ happ

/-- C3 (failing run): on `CacheDedup::with_capacity(1..=1)`, calling
`get_or_init(0, 10)` then `get_or_init(1, 20)` makes the second insert
evict the handle for value `10`; its reference count is then exactly 1
(the interning set is its only remaining holder — no cache entry carries
allocation 0), yet it is still in the interning set when `get_or_init`
returns: the cleanup branch guards on `insert`'s return value, which is
`None` for a fresh key, so it never runs. -/
theorem cacheDedup_orphan_not_removed :
    ∃ p1 p2,
      CacheDedup.get_or_init (CacheDedup.withCapacity 1 1 : CacheDedup Nat Nat) 0 10
        = some p1 ∧
      CacheDedup.get_or_init p1.2 1 20 = some p2 ∧
      (0, 10) ∈ p2.2.groups.elems ∧
      p2.2.cache.map.countP (fun e => decide (e.2.val.1 = 0)) = 0 :=
  ⟨_, _, rfl, rfl, by decide, by decide⟩
